import Mathlib

/-!
Verification of the OmnigraphMobile audio/image codec core
(`omnigraph_codex.py`, methods `encode_audio_to_image` and
`decode_image_to_audio`).

The numeric kernel of the codec is numpy float32/float64 arithmetic.  It is
embedded exactly: `flPos`/`flZ` implement IEEE-754 round-to-nearest-even at a
given precision over exact rational inputs (no overflow or subnormals occur in
the codec's value ranges), and the quantizer / dequantizer / spectral remix are
compositions of those correctly rounded operations, mirroring the source
expressions operation by operation.
-/

/-- Floor of log2 for 1 ≤ n < 4 (`ilog2 0` is irrelevantly 0). -/
def ilog2a (n : ℕ) : ℕ := if n < 2 then 0 else 1

/-- Floor of log2 for n < 16. -/
def ilog2b (n : ℕ) : ℕ := if n < 4 then ilog2a n else 2 + ilog2a (n / 4)

/-- Floor of log2 for n < 256. -/
def ilog2c (n : ℕ) : ℕ := if n < 16 then ilog2b n else 4 + ilog2b (n / 16)

/-- Floor of log2 for n < 2^16. -/
def ilog2d (n : ℕ) : ℕ := if n < 256 then ilog2c n else 8 + ilog2c (n / 256)

/-- Floor of log2 for n < 2^32. -/
def ilog2e (n : ℕ) : ℕ := if n < 65536 then ilog2d n else 16 + ilog2d (n / 65536)

/-- Floor of log2 for n < 2^64. -/
def ilog2f (n : ℕ) : ℕ := if n < 4294967296 then ilog2e n else 32 + ilog2e (n / 4294967296)

/-- Floor of log2 for n < 2^128, by binary search (kernel-evaluation friendly). -/
def ilog2 (n : ℕ) : ℕ :=
  if n < 18446744073709551616 then ilog2f n else 64 + ilog2f (n / 18446744073709551616)

/-- Round p/q (q > 0) to the nearest integer, ties to even (IEEE default). -/
def rnat (p q : ℕ) : ℕ :=
  let d := p / q
  let r := p % q
  if 2 * r < q then d else if q < 2 * r then d + 1 else if d % 2 = 0 then d else d + 1

/-- Binary scale s such that 2^(prec-1) ≤ (p/q)·2^s < 2^prec, for 0 < p/q < 2^(prec-1). -/
def flScale (prec p q : ℕ) : ℕ :=
  let s0 := prec - 1 + ilog2 q - ilog2 p
  if 2 ^ (prec - 1) * q ≤ p * 2 ^ s0 then s0 else s0 + 1

/-- IEEE round-to-nearest-even of the positive rational p/q at `prec` bits of
precision, as a dyadic pair `(m, s)` denoting m / 2^s.  This is the exact
value a binary floating-point unit with a `prec`-bit significand produces for
p/q, whenever p/q is in the normal finite range. -/
def flPos (prec p q : ℕ) : ℕ × ℕ :=
  let s := flScale prec p q
  (rnat (p * 2 ^ s) q, s)

/-- Signed version of `flPos`: round the rational p/q (q > 0, p : ℤ). -/
def flZ (prec : ℕ) (p : ℤ) (q : ℕ) : ℤ × ℕ :=
  if 0 ≤ p then
    let ms := flPos prec p.toNat q
    ((ms.1 : ℤ), ms.2)
  else
    let ms := flPos prec (-p).toNat q
    (-(ms.1 : ℤ), ms.2)

/-- Truncate the dyadic m / 2^s toward zero (C float→int cast behaviour). -/
def tdivP (m : ℤ) (s : ℕ) : ℤ :=
  if 0 ≤ m then ((m.toNat / 2 ^ s : ℕ) : ℤ) else -(((-m).toNat / 2 ^ s : ℕ) : ℤ)

/-- Wrap an integer into the int16 range, as numpy's cast to `np.int16` does
for an in-64-bit-range value: reduce modulo 2^16 into [-32768, 32767]. -/
def wrap16 (z : ℤ) : ℤ := Int.emod (z + 32768) 65536 - 32768

/-- The float32 part of the quantizer on the shifted sample u = x + 32768:
`(u : float32) / 65535 * 255` with both the division and the multiplication
correctly rounded in float32 (24-bit significand), truncated to an integer. -/
def quantizeCore (u : ℕ) : ℕ :=
  let a := flPos 24 u 65535
  let b := flPos 24 (a.1 * 255) (2 ^ a.2)
  b.1 / 2 ^ b.2

/-- The quantizer body on the shifted sample u = x + 32768 ∈ [0, 65535]:
`((u : float32) / 65535 * 255).astype(np.uint8)`, the final cast truncating
toward zero and wrapping modulo 2^8. -/
def quantizeU (u : ℕ) : ℕ := quantizeCore u % 256

/-- Source line 503: `((audio_data.astype(np.float32) + 32768) / 65535 * 255)
.astype(np.uint8)`.  For an int16 sample the conversion to float32 and the
addition of 32768 are exact (results are integers below 2^24), so the whole
map is `quantizeU` of the shifted sample. -/
def quantizeF (x : ℤ) : ℕ := quantizeU (x + 32768).toNat

/-- Source line 595: `((byte.astype(np.float32) / 255) * 65535 - 32768)
.astype(np.int16)`: float32 division, multiplication and subtraction, each
correctly rounded, then a truncating cast wrapping modulo 2^16. -/
def dequantizeF (b : ℕ) : ℤ :=
  let a := flPos 24 b 255
  let c := flPos 24 (a.1 * 65535) (2 ^ a.2)
  let d := flZ 24 ((c.1 : ℤ) - 32768 * 2 ^ c.2) (2 ^ c.2)
  wrap16 (tdivP d.1 d.2)

/-- Source line 611: `(red_16 * 0.6 + green_16 * 0.3 + blue_16 * 0.1)
.astype(np.int16)`.  The int16 operands promote to float64; the literals are
the float64 values nearest 0.6, 0.3, 0.1, namely 5404319552844595/2^53,
5404319552844595/2^54 and 3602879701896397/2^55; the three products and the
two (left-associated) additions are each correctly rounded in float64
(53-bit significand); the final cast truncates toward zero and wraps. -/
def remixF (r g b : ℤ) : ℤ :=
  let p1 := flZ 53 (r * 5404319552844595) (2 ^ 53)
  let p2 := flZ 53 (g * 5404319552844595) (2 ^ 54)
  let p3 := flZ 53 (b * 3602879701896397) (2 ^ 55)
  let u1 := flZ 53 (p1.1 * 2 ^ p2.2 + p2.1 * 2 ^ p1.2) (2 ^ (p1.2 + p2.2))
  let u2 := flZ 53 (u1.1 * 2 ^ p3.2 + p3.1 * 2 ^ u1.2) (2 ^ (u1.2 + p3.2))
  wrap16 (tdivP u2.1 u2.2)

/-! ### Correctness of `ilog2`

`ilog2 n` is the floor of the base-2 logarithm for every `0 < n < 2^128`,
proven level by level through the binary search. -/

theorem ilog2a_correct : ∀ n, 0 < n → n < 2 ^ 2 → 2 ^ ilog2a n ≤ n ∧ n < 2 ^ (ilog2a n + 1) := by
  intro n h1 h2
  norm_num at h2
  interval_cases n <;> decide

theorem ilog2_step {g : ℕ → ℕ} {k : ℕ}
    (hg : ∀ n, 0 < n → n < 2 ^ k → 2 ^ g n ≤ n ∧ n < 2 ^ (g n + 1)) :
    ∀ n, 0 < n → n < 2 ^ (2 * k) →
      2 ^ (if n < 2 ^ k then g n else k + g (n / 2 ^ k)) ≤ n ∧
        n < 2 ^ ((if n < 2 ^ k then g n else k + g (n / 2 ^ k)) + 1) := by
  intro n hn hnb
  by_cases h : n < 2 ^ k
  · simpa [h] using hg n hn h
  · push_neg at h
    have hk0 : (0:ℕ) < 2 ^ k := Nat.pos_pow_of_pos _ (by norm_num)
    have hq0 : 0 < n / 2 ^ k := Nat.div_pos h hk0
    have hqb : n / 2 ^ k < 2 ^ k := by
      apply Nat.div_lt_of_lt_mul
      calc n < 2 ^ (2 * k) := hnb
        _ = 2 ^ k * 2 ^ k := by rw [two_mul, pow_add]
    obtain ⟨h1, h2⟩ := hg _ hq0 hqb
    rw [if_neg (not_lt.mpr h)]
    constructor
    · calc 2 ^ (k + g (n / 2 ^ k)) = 2 ^ k * 2 ^ g (n / 2 ^ k) := pow_add 2 k _
        _ ≤ 2 ^ k * (n / 2 ^ k) := Nat.mul_le_mul_left _ h1
        _ ≤ n := Nat.mul_div_le n (2 ^ k)
    · have hmod : n % 2 ^ k < 2 ^ k := Nat.mod_lt _ hk0
      have hsplit : 2 ^ k * (n / 2 ^ k) + n % 2 ^ k = n := Nat.div_add_mod n (2 ^ k)
      calc n < 2 ^ k * (n / 2 ^ k + 1) := by
              rw [Nat.mul_succ]; omega
        _ ≤ 2 ^ k * 2 ^ (g (n / 2 ^ k) + 1) := Nat.mul_le_mul_left _ h2
        _ = 2 ^ (k + g (n / 2 ^ k) + 1) := by rw [← pow_add, Nat.add_assoc]

theorem ilog2b_correct : ∀ n, 0 < n → n < 2 ^ 4 → 2 ^ ilog2b n ≤ n ∧ n < 2 ^ (ilog2b n + 1) := by
  intro n hn hb
  have h := ilog2_step (k := 2) ilog2a_correct n hn (by norm_num at hb ⊢; omega)
  simpa [ilog2b, show (2:ℕ) ^ 2 = 4 from rfl] using h

theorem ilog2c_correct : ∀ n, 0 < n → n < 2 ^ 8 → 2 ^ ilog2c n ≤ n ∧ n < 2 ^ (ilog2c n + 1) := by
  intro n hn hb
  have h := ilog2_step (k := 4) ilog2b_correct n hn (by norm_num at hb ⊢; omega)
  simpa [ilog2c, show (2:ℕ) ^ 4 = 16 from rfl] using h

theorem ilog2d_correct : ∀ n, 0 < n → n < 2 ^ 16 → 2 ^ ilog2d n ≤ n ∧ n < 2 ^ (ilog2d n + 1) := by
  intro n hn hb
  have h := ilog2_step (k := 8) ilog2c_correct n hn (by norm_num at hb ⊢; omega)
  simpa [ilog2d, show (2:ℕ) ^ 8 = 256 from rfl] using h

theorem ilog2e_correct : ∀ n, 0 < n → n < 2 ^ 32 → 2 ^ ilog2e n ≤ n ∧ n < 2 ^ (ilog2e n + 1) := by
  intro n hn hb
  have h := ilog2_step (k := 16) ilog2d_correct n hn (by norm_num at hb ⊢; omega)
  simpa [ilog2e, show (2:ℕ) ^ 16 = 65536 from rfl] using h

theorem ilog2f_correct : ∀ n, 0 < n → n < 2 ^ 64 → 2 ^ ilog2f n ≤ n ∧ n < 2 ^ (ilog2f n + 1) := by
  intro n hn hb
  have h := ilog2_step (k := 32) ilog2e_correct n hn (by norm_num at hb ⊢; omega)
  simpa [ilog2f, show (2:ℕ) ^ 32 = 4294967296 from rfl] using h

theorem ilog2_correct : ∀ n, 0 < n → n < 2 ^ 128 → 2 ^ ilog2 n ≤ n ∧ n < 2 ^ (ilog2 n + 1) := by
  intro n hn hb
  have h := ilog2_step (k := 64) ilog2f_correct n hn (by norm_num at hb ⊢; omega)
  simpa [ilog2, show (2:ℕ) ^ 64 = 18446744073709551616 from rfl] using h

/-! ### Properties of round-to-nearest-even -/

theorem rnat_ge (p q : ℕ) : p / q ≤ rnat p q := by
  unfold rnat
  dsimp only
  split_ifs <;> omega

theorem rnat_le (p q : ℕ) : rnat p q ≤ p / q + 1 := by
  unfold rnat
  dsimp only
  split_ifs <;> omega

/-- Rounding to nearest (ties to even) is monotone in the rounded value, also
across distinct denominators. -/
theorem rnat_mono {p q p' q' : ℕ} (hq : 0 < q) (hq' : 0 < q')
    (h : p * q' ≤ p' * q) : rnat p q ≤ rnat p' q' := by
  have hd : p / q ≤ p' / q' := by
    rw [Nat.le_div_iff_mul_le hq']
    have h1 : p / q * q ≤ p := Nat.div_mul_le_self p q
    have h2 : p / q * q' * q ≤ p' * q := by
      calc p / q * q' * q = p / q * q * q' := by ring
        _ ≤ p * q' := Nat.mul_le_mul_right _ h1
        _ ≤ p' * q := h
    exact Nat.le_of_mul_le_mul_right h2 hq
  rcases Nat.lt_or_ge (p / q) (p' / q') with hlt | hge
  · calc rnat p q ≤ p / q + 1 := rnat_le p q
      _ ≤ p' / q' := hlt
      _ ≤ rnat p' q' := rnat_ge p' q'
  · have heq : p / q = p' / q' := le_antisymm hd hge
    have e1 : q * (p / q) + p % q = p := Nat.div_add_mod p q
    have e2 : q' * (p / q) + p' % q' = p' := by rw [heq]; exact Nat.div_add_mod p' q'
    have key : p % q * q' ≤ p' % q' * q := by
      have expand : (q * (p / q) + p % q) * q' ≤ (q' * (p / q) + p' % q') * q := by
        rw [e1, e2]; exact h
      nlinarith [expand]
    unfold rnat
    dsimp only
    rw [← heq]
    have hrq : p % q < q := Nat.mod_lt _ hq
    have hrq' : p' % q' < q' := Nat.mod_lt _ hq'
    split_ifs <;> first
      | omega
      | (exfalso; nlinarith [key])

/-! ### The scale chosen by `flScale` normalizes the value into [2^(prec-1), 2^prec) -/

theorem flScale_invariant (prec p q : ℕ) (hprec : 0 < prec) (hp : 0 < p) (hq : 0 < q)
    (hpb : p < 2 ^ (prec - 1) * q) (hp128 : p < 2 ^ 128) (hq128 : q < 2 ^ 128) :
    2 ^ (prec - 1) * q ≤ p * 2 ^ flScale prec p q ∧
      p * 2 ^ flScale prec p q < 2 ^ prec * q := by
  obtain ⟨hp1, hp2⟩ := ilog2_correct p hp hp128
  obtain ⟨hq1, hq2⟩ := ilog2_correct q hq hq128
  have hle : ilog2 p ≤ prec - 1 + ilog2 q := by
    by_contra hcon
    push_neg at hcon
    have hstep : 2 ^ (prec - 1 + ilog2 q + 1) ≤ 2 ^ ilog2 p :=
      Nat.pow_le_pow_right (by norm_num) (by omega)
    have h3 : 2 ^ (prec - 1 + ilog2 q + 1) ≤ p := le_trans hstep hp1
    have h4 : 2 ^ (prec - 1) * q < 2 ^ (prec - 1 + ilog2 q + 1) := by
      calc 2 ^ (prec - 1) * q < 2 ^ (prec - 1) * 2 ^ (ilog2 q + 1) :=
            mul_lt_mul' (le_refl _) hq2 (Nat.zero_le _) (Nat.pos_pow_of_pos _ (by norm_num))
        _ = 2 ^ (prec - 1 + ilog2 q + 1) := by rw [← pow_add, Nat.add_assoc]
    exact absurd hpb (by omega)
  have hexp : prec - 1 + ilog2 q - ilog2 p + ilog2 p = prec - 1 + ilog2 q := by omega
  unfold flScale
  dsimp only
  by_cases htest : 2 ^ (prec - 1) * q ≤ p * 2 ^ (prec - 1 + ilog2 q - ilog2 p)
  · rw [if_pos htest]
    refine ⟨htest, ?_⟩
    calc p * 2 ^ (prec - 1 + ilog2 q - ilog2 p)
        < 2 ^ (ilog2 p + 1) * 2 ^ (prec - 1 + ilog2 q - ilog2 p) :=
          mul_lt_mul_of_pos_right hp2 (Nat.pos_pow_of_pos _ (by norm_num))
      _ = 2 ^ (ilog2 p + 1 + (prec - 1 + ilog2 q - ilog2 p)) := (pow_add 2 _ _).symm
      _ = 2 ^ (prec + ilog2 q) := by congr 1; omega
      _ = 2 ^ prec * 2 ^ ilog2 q := pow_add 2 _ _
      _ ≤ 2 ^ prec * q := Nat.mul_le_mul_left _ hq1
  · rw [if_neg htest]
    push_neg at htest
    constructor
    · have hA : 2 ^ (prec - 1) * q < 2 ^ (prec - 1 + ilog2 q + 1) := by
        calc 2 ^ (prec - 1) * q < 2 ^ (prec - 1) * 2 ^ (ilog2 q + 1) :=
              mul_lt_mul' (le_refl _) hq2 (Nat.zero_le _) (Nat.pos_pow_of_pos _ (by norm_num))
          _ = 2 ^ (prec - 1 + ilog2 q + 1) := by rw [← pow_add, Nat.add_assoc]
      have hB : 2 ^ (prec - 1 + ilog2 q + 1) ≤ p * 2 ^ (prec - 1 + ilog2 q - ilog2 p + 1) := by
        calc (2:ℕ) ^ (prec - 1 + ilog2 q + 1)
            = 2 ^ ilog2 p * 2 ^ (prec - 1 + ilog2 q - ilog2 p + 1) := by
              rw [← pow_add]; congr 1; omega
          _ ≤ p * 2 ^ (prec - 1 + ilog2 q - ilog2 p + 1) := Nat.mul_le_mul_right _ hp1
      omega
    · have : p * 2 ^ (prec - 1 + ilog2 q - ilog2 p + 1)
          = 2 * (p * 2 ^ (prec - 1 + ilog2 q - ilog2 p)) := by ring
      have h2prec : (2:ℕ) ^ prec = 2 * 2 ^ (prec - 1) := by
        rw [← pow_succ']; congr 1; omega
      calc p * 2 ^ (prec - 1 + ilog2 q - ilog2 p + 1)
          = 2 * (p * 2 ^ (prec - 1 + ilog2 q - ilog2 p)) := this
        _ < 2 * (2 ^ (prec - 1) * q) := by omega
        _ = 2 ^ prec * q := by rw [h2prec]; ring

/-! ### Bounds and monotonicity of the rounded mantissa -/

theorem flPos_eq (prec p q : ℕ) :
    flPos prec p q = (rnat (p * 2 ^ flScale prec p q) q, flScale prec p q) := rfl

theorem flPos_fst_ge {prec p q : ℕ} (hq : 0 < q)
    (hinv : 2 ^ (prec - 1) * q ≤ p * 2 ^ flScale prec p q) :
    2 ^ (prec - 1) ≤ (flPos prec p q).1 := by
  rw [flPos_eq]
  refine le_trans ?_ (rnat_ge _ _)
  rw [Nat.le_div_iff_mul_le hq]
  calc 2 ^ (prec - 1) * q ≤ p * 2 ^ flScale prec p q := hinv
    _ = p * 2 ^ flScale prec p q := rfl

theorem flPos_fst_le {prec p q : ℕ}
    (hinv : p * 2 ^ flScale prec p q < 2 ^ prec * q) :
    (flPos prec p q).1 ≤ 2 ^ prec := by
  rw [flPos_eq]
  have hd : p * 2 ^ flScale prec p q / q < 2 ^ prec :=
    Nat.div_lt_of_lt_mul (by calc p * 2 ^ flScale prec p q < 2 ^ prec * q := hinv
      _ = q * 2 ^ prec := by ring)
  calc rnat (p * 2 ^ flScale prec p q) q ≤ p * 2 ^ flScale prec p q / q + 1 := rnat_le _ _
    _ ≤ 2 ^ prec := by omega

/-- Monotonicity of the correctly rounded value: if p/q ≤ p'/q' (both positive,
both below 2^(prec-1)), then the float rounded from p/q is at most the float
rounded from p'/q', comparing the dyadic outputs as m / 2^s ≤ m' / 2^s'. -/
theorem flPos_mono (prec p q p' q' : ℕ) (hprec : 0 < prec)
    (hp : 0 < p) (hp' : 0 < p') (hq : 0 < q) (hq' : 0 < q')
    (hpb : p < 2 ^ (prec - 1) * q) (hpb' : p' < 2 ^ (prec - 1) * q')
    (hp128 : p < 2 ^ 128) (hq128 : q < 2 ^ 128)
    (hp'128 : p' < 2 ^ 128) (hq'128 : q' < 2 ^ 128)
    (hmono : p * q' ≤ p' * q) :
    (flPos prec p q).1 * 2 ^ (flPos prec p' q').2 ≤
      (flPos prec p' q').1 * 2 ^ (flPos prec p q).2 := by
  obtain ⟨inv1, inv2⟩ := flScale_invariant prec p q hprec hp hq hpb hp128 hq128
  obtain ⟨inv1', inv2'⟩ := flScale_invariant prec p' q' hprec hp' hq' hpb' hp'128 hq'128
  rw [flPos_eq, flPos_eq]
  dsimp only
  set s := flScale prec p q with hs
  set s' := flScale prec p' q' with hs'
  rcases lt_trichotomy s s' with hss | hss | hss
  · -- s < s' is impossible: the primed value would sit strictly below the other
    exfalso
    have h1 : p' * 2 ^ (s + 1) ≤ p' * 2 ^ s' :=
      Nat.mul_le_mul_left _ (Nat.pow_le_pow_right (by norm_num) (by omega))
    have h2 : p' * 2 ^ s < 2 ^ (prec - 1) * q' := by
      have hx : p' * 2 ^ (s + 1) = 2 * (p' * 2 ^ s) := by ring
      have hy : (2:ℕ) ^ prec = 2 * 2 ^ (prec - 1) := by
        rw [← pow_succ']; congr 1; omega
      have hz : 2 ^ prec * q' = 2 * (2 ^ (prec - 1) * q') := by rw [hy]; ring
      have := lt_of_le_of_lt h1 inv2'
      omega
    -- 2^(prec-1) * q * q' ≤ p * 2^s * q' ≤ p' * 2^s * q < 2^(prec-1) * q' * q
    have hA : 2 ^ (prec - 1) * q * q' ≤ p * 2 ^ s * q' :=
      Nat.mul_le_mul_right _ inv1
    have hB : p * 2 ^ s * q' ≤ p' * 2 ^ s * q := by
      calc p * 2 ^ s * q' = p * q' * 2 ^ s := by ring
        _ ≤ p' * q * 2 ^ s := Nat.mul_le_mul_right _ hmono
        _ = p' * 2 ^ s * q := by ring
    have hC : p' * 2 ^ s * q < 2 ^ (prec - 1) * q' * q :=
      mul_lt_mul_of_pos_right h2 hq
    have : 2 ^ (prec - 1) * q * q' < 2 ^ (prec - 1) * q * q' := by
      calc 2 ^ (prec - 1) * q * q' ≤ p * 2 ^ s * q' := hA
        _ ≤ p' * 2 ^ s * q := hB
        _ < 2 ^ (prec - 1) * q' * q := hC
        _ = 2 ^ (prec - 1) * q * q' := by ring
    exact lt_irrefl _ this
  · -- equal scales: direct rounding monotonicity
    have hr : rnat (p * 2 ^ s) q ≤ rnat (p' * 2 ^ s') q' := by
      apply rnat_mono hq hq'
      calc p * 2 ^ s * q' = p * q' * 2 ^ s := by ring
        _ ≤ p' * q * 2 ^ s := Nat.mul_le_mul_right _ hmono
        _ = p' * 2 ^ s' * q := by rw [← hss]; ring
    rw [hss] at hr ⊢
    exact Nat.mul_le_mul_right _ hr
  · -- s > s': the two values are in different binades and the powers decide
    have hm_up : rnat (p * 2 ^ s) q ≤ 2 ^ prec := by
      have := flPos_fst_le inv2
      rwa [flPos_eq] at this
    have hm_lo : 2 ^ (prec - 1) ≤ rnat (p' * 2 ^ s') q' := by
      have := flPos_fst_ge hq' inv1'
      rwa [flPos_eq] at this
    calc rnat (p * 2 ^ s) q * 2 ^ s' ≤ 2 ^ prec * 2 ^ s' := Nat.mul_le_mul_right _ hm_up
      _ = 2 ^ (prec + s') := (pow_add 2 _ _).symm
      _ ≤ 2 ^ (prec - 1 + s) := Nat.pow_le_pow_right (by norm_num) (by omega)
      _ = 2 ^ (prec - 1) * 2 ^ s := pow_add 2 _ _
      _ ≤ rnat (p' * 2 ^ s') q' * 2 ^ s := Nat.mul_le_mul_right _ hm_lo

theorem div_le_div_cross {a b c d : ℕ} (hb : 0 < b) (hd : 0 < d)
    (h : a * d ≤ c * b) : a / b ≤ c / d := by
  rw [Nat.le_div_iff_mul_le hd]
  have h1 : a / b * b ≤ a := Nat.div_mul_le_self a b
  have h2 : a / b * d * b ≤ c * b := by
    calc a / b * d * b = a / b * b * d := by ring
      _ ≤ a * d := Nat.mul_le_mul_right _ h1
      _ ≤ c * b := h
  exact Nat.le_of_mul_le_mul_right h2 hb

/-! ### Bounds on the two float32 steps of the quantizer -/

theorem quant_first_bounds (u : ℕ) (hu : 0 < u) (hub : u ≤ 65791) :
    (23 ≤ (flPos 24 u 65535).2 ∧ (flPos 24 u 65535).2 ≤ 40) ∧
      2 ^ 23 ≤ (flPos 24 u 65535).1 ∧ (flPos 24 u 65535).1 ≤ 2 ^ 24 := by
  have hpb : u < 2 ^ (24 - 1) * 65535 := by
    calc u ≤ 65791 := hub
      _ < 2 ^ (24 - 1) * 65535 := by norm_num
  obtain ⟨inv1, inv2⟩ := flScale_invariant 24 u 65535
    (by norm_num) hu (by norm_num) hpb (by omega) (by norm_num)
  have hs2 : (flPos 24 u 65535).2 = flScale 24 u 65535 := rfl
  constructor
  · constructor
    · -- 23 ≤ s1
      rw [hs2]
      by_contra hcon
      push_neg at hcon
      have hle : (2:ℕ) ^ flScale 24 u 65535 ≤ 2 ^ 22 :=
        Nat.pow_le_pow_right (by norm_num) (by omega)
      have : u * 2 ^ flScale 24 u 65535 ≤ 65791 * 2 ^ 22 :=
        Nat.mul_le_mul hub hle
      have hnum : (65791 : ℕ) * 2 ^ 22 < 2 ^ (24 - 1) * 65535 := by norm_num
      omega
    · -- s1 ≤ 40
      rw [hs2]
      by_contra hcon
      push_neg at hcon
      have hle : (2:ℕ) ^ 41 ≤ 2 ^ flScale 24 u 65535 :=
        Nat.pow_le_pow_right (by norm_num) (by omega)
      have h1 : (2:ℕ) ^ 41 ≤ u * 2 ^ flScale 24 u 65535 := by
        calc (2:ℕ) ^ 41 ≤ 2 ^ flScale 24 u 65535 := hle
          _ ≤ u * 2 ^ flScale 24 u 65535 := Nat.le_mul_of_pos_left _ hu
      have hnum : (2:ℕ) ^ 24 * 65535 < 2 ^ 41 := by norm_num
      omega
  · constructor
    · exact flPos_fst_ge (by norm_num) inv1
    · exact flPos_fst_le inv2

theorem quant_second_conds (u : ℕ) (hu : 0 < u) (hub : u ≤ 65791) :
    0 < (flPos 24 u 65535).1 * 255 ∧
      (flPos 24 u 65535).1 * 255 < 2 ^ (24 - 1) * 2 ^ (flPos 24 u 65535).2 ∧
      (flPos 24 u 65535).1 * 255 < 2 ^ 128 ∧ 2 ^ (flPos 24 u 65535).2 < 2 ^ 128 := by
  obtain ⟨⟨hs1, hs2⟩, hm1, hm2⟩ := quant_first_bounds u hu hub
  refine ⟨?_, ?_, ?_, ?_⟩
  · have : (0:ℕ) < 2 ^ 23 := by norm_num
    omega
  · calc (flPos 24 u 65535).1 * 255 ≤ 2 ^ 24 * 255 := Nat.mul_le_mul_right _ hm2
      _ < 2 ^ (24 - 1) * 2 ^ 9 := by norm_num
      _ ≤ 2 ^ (24 - 1) * 2 ^ (flPos 24 u 65535).2 :=
          Nat.mul_le_mul_left _ (Nat.pow_le_pow_right (by norm_num) (by omega))
  · calc (flPos 24 u 65535).1 * 255 ≤ 2 ^ 24 * 255 := Nat.mul_le_mul_right _ hm2
      _ < 2 ^ 128 := by norm_num
  · calc (2:ℕ) ^ (flPos 24 u 65535).2 ≤ 2 ^ 40 :=
        Nat.pow_le_pow_right (by norm_num) hs2
      _ < 2 ^ 128 := by norm_num

/-- The float32 quantizer core is monotone non-decreasing on (0, 65791]. -/
theorem quantizeCore_mono (u u' : ℕ) (hu : 0 < u) (huu : u ≤ u') (hub : u' ≤ 65791) :
    quantizeCore u ≤ quantizeCore u' := by
  have hu' : 0 < u' := lt_of_lt_of_le hu huu
  have hub1 : u ≤ 65791 := le_trans huu hub
  obtain ⟨hA0, hApb, hA128, hAq128⟩ := quant_second_conds u hu hub1
  obtain ⟨hB0, hBpb, hB128, hBq128⟩ := quant_second_conds u' hu' hub
  have step1 := flPos_mono 24 u 65535 u' 65535
    (by norm_num) hu hu' (by norm_num) (by norm_num)
    (by calc u ≤ 65791 := hub1
          _ < 2 ^ (24 - 1) * 65535 := by norm_num)
    (by calc u' ≤ 65791 := hub
          _ < 2 ^ (24 - 1) * 65535 := by norm_num)
    (by omega) (by norm_num) (by omega) (by norm_num)
    (Nat.mul_le_mul_right _ huu)
  have hmono2 : (flPos 24 u 65535).1 * 255 * 2 ^ (flPos 24 u' 65535).2 ≤
      (flPos 24 u' 65535).1 * 255 * 2 ^ (flPos 24 u 65535).2 := by
    calc (flPos 24 u 65535).1 * 255 * 2 ^ (flPos 24 u' 65535).2
        = (flPos 24 u 65535).1 * 2 ^ (flPos 24 u' 65535).2 * 255 := by ring
      _ ≤ (flPos 24 u' 65535).1 * 2 ^ (flPos 24 u 65535).2 * 255 :=
          Nat.mul_le_mul_right _ step1
      _ = (flPos 24 u' 65535).1 * 255 * 2 ^ (flPos 24 u 65535).2 := by ring
  have step2 := flPos_mono 24
    ((flPos 24 u 65535).1 * 255) (2 ^ (flPos 24 u 65535).2)
    ((flPos 24 u' 65535).1 * 255) (2 ^ (flPos 24 u' 65535).2)
    (by norm_num) hA0 hB0 (Nat.pos_pow_of_pos _ (by norm_num)) (Nat.pos_pow_of_pos _ (by norm_num))
    hApb hBpb hA128 hAq128 hB128 hBq128 hmono2
  show (flPos 24 ((flPos 24 u 65535).1 * 255) (2 ^ (flPos 24 u 65535).2)).1 /
        2 ^ (flPos 24 ((flPos 24 u 65535).1 * 255) (2 ^ (flPos 24 u 65535).2)).2 ≤
      (flPos 24 ((flPos 24 u' 65535).1 * 255) (2 ^ (flPos 24 u' 65535).2)).1 /
        2 ^ (flPos 24 ((flPos 24 u' 65535).1 * 255) (2 ^ (flPos 24 u' 65535).2)).2
  exact div_le_div_cross (Nat.pos_pow_of_pos _ (by norm_num))
    (Nat.pos_pow_of_pos _ (by norm_num)) step2

/-! ### The quantizer agrees with integer division by 257 -/

set_option maxRecDepth 10000 in
set_option maxHeartbeats 1000000 in
theorem quantizeCore_endpoints : (List.range 256).all
    (fun k => (quantizeCore (257 * k) == k) && (quantizeCore (257 * k + 256) == k)) = true := by
  decide

theorem quantizeCore_endpoint_spec :
    ∀ k, k < 256 → quantizeCore (257 * k) = k ∧ quantizeCore (257 * k + 256) = k := by
  intro k hk
  have h := quantizeCore_endpoints
  rw [List.all_eq_true] at h
  have := h k (List.mem_range.mpr hk)
  simpa [Bool.and_eq_true, beq_iff_eq] using this

/-- Bridge: the float32 quantizer computes exactly `u / 257` on the int16
shifted domain, so the source's float expression realizes the exact integer
formula `floor(u * 255 / 65535)`. -/
theorem quantizeU_eq_div : ∀ u, u < 65536 → quantizeU u = u / 257 := by
  intro u hu
  have hcore : quantizeCore u = u / 257 := by
    rcases Nat.eq_zero_or_pos u with h0 | hpos
    · subst h0
      simpa using (quantizeCore_endpoint_spec 0 (by norm_num)).1
    · have hk : u / 257 < 256 := by omega
      obtain ⟨e1, e2⟩ := quantizeCore_endpoint_spec (u / 257) hk
      have hl : 257 * (u / 257) ≤ u := Nat.mul_div_le u 257
      have hr : u ≤ 257 * (u / 257) + 256 := by omega
      have low : u / 257 ≤ quantizeCore u := by
        rcases Nat.eq_zero_or_pos (u / 257) with hz | hpos2
        · omega
        · have := quantizeCore_mono (257 * (u / 257)) u (by omega) hl (by omega)
          omega
      have high : quantizeCore u ≤ u / 257 := by
        have := quantizeCore_mono u (257 * (u / 257) + 256) hpos hr (by omega)
        omega
      omega
  unfold quantizeU
  rw [hcore]
  exact Nat.mod_eq_of_lt (by omega)

/-! ### The dequantizer agrees with `257 * byte - 32768` -/

set_option maxRecDepth 10000 in
set_option maxHeartbeats 1000000 in
theorem dequantizeF_endpoints : (List.range 256).all
    (fun b => dequantizeF b == 257 * (b : ℤ) - 32768) = true := by
  decide

theorem dequantizeF_eq : ∀ b, b < 256 → dequantizeF b = 257 * (b : ℤ) - 32768 := by
  intro b hb
  have h := dequantizeF_endpoints
  rw [List.all_eq_true] at h
  have := h b (List.mem_range.mpr hb)
  simpa [beq_iff_eq] using this

/-! ### Data model and raster packing -/

/-- Search upward from k for the least j with m ≤ j * j (fuel-based so the
kernel can evaluate it). -/
def ceilSqrtFrom (m : ℕ) : ℕ → ℕ → ℕ
  | 0, k => k
  | f + 1, k => if m ≤ k * k then k else ceilSqrtFrom m f (k + 1)

/-- `int(np.ceil(np.sqrt(m)))` (source lines 511, 524, 559): the least side
with side * side ≥ m.  float64 square root is exactly rounded and any
realizable buffer length is far below 2^52, so the source's float expression
realizes the exact ceiling square root. -/
def ceilSqrt (m : ℕ) : ℕ := ceilSqrtFrom m (m + 1) 0

/-- `np.pad(l, (0, required - len(l)), mode='constant')`: appends `pad`
elements; a negative pad width (`len(l) > required`) raises ValueError in
numpy, modelled as `none`. -/
def npad {α : Type} (pad : α) (l : List α) (required : ℕ) : Option (List α) :=
  if l.length ≤ required then some (l ++ List.replicate (required - l.length) pad) else none

/-- numpy row-major `reshape((rows, w))` of a flat list (used with
`(side, side)` and `(-1, 3)` in the source). -/
def reshapeRect {α : Type} (rows w : ℕ) (l : List α) : List (List α) :=
  (List.range rows).map fun i => (l.drop (i * w)).take w

/-- A square RGB raster: the three channel planes as row-major grids. -/
structure RGBImage where
  side : ℕ
  red : List (List ℕ)
  green : List (List ℕ)
  blue : List (List ℕ)

/-- The Raster Packer: `side = ceil(sqrt(M))`, zero-pad to `side^2`, reshape
row-major into a `side × side` grid (the packing step of the encoders). -/
def pack (values : List ℕ) : List (List ℕ) :=
  let side := ceilSqrt values.length
  reshapeRect side side (values ++ List.replicate (side ^ 2 - values.length) 0)

/-- The inverse of `pack`: flatten the square grid row-major (the
`.flatten()` step of the decoders). -/
def unpack (g : List (List ℕ)) : List ℕ := g.flatten

/-- Elementwise combination of three equal-length arrays (numpy elementwise
ops / `np.stack` along the last axis). -/
def zip3With {α β γ δ : Type} (f : α → β → γ → δ) : List α → List β → List γ → List δ
  | a :: as, b :: bs, c :: cs => f a b c :: zip3With f as bs cs
  | _, _, _ => []

/-! ### The three encoders (source lines 505-570) -/

/-- Method A (source lines 505-519): quantize, split into three contiguous
segments at `total // 3` and `2 * total // 3`, pad each to the square sized
from the red segment, deposit as the red, green, blue planes. -/
def encode_audio_to_image_A (audio : List ℤ) : Option RGBImage :=
  let audio_8bit := audio.map quantizeF
  let total := audio_8bit.length
  let red := audio_8bit.take (total / 3)
  let green := (audio_8bit.drop (total / 3)).take (2 * total / 3 - total / 3)
  let blue := audio_8bit.drop (2 * total / 3)
  let side := ceilSqrt red.length
  let required := side ^ 2
  match npad 0 red required, npad 0 green required, npad 0 blue required with
  | some r, some g, some b =>
      some ⟨side, reshapeRect side side r, reshapeRect side side g, reshapeRect side side b⟩
  | _, _, _ => none

/-- Method B on the quantized byte stream (source lines 521-530): truncate to
a multiple of 3, group into triples, zero-pad the triple list to the square,
deposit column 0 into red, column 2 into green, column 1 into blue. -/
def encodeB_bytes (audio_8bit : List ℕ) : Option RGBImage :=
  let trimmed := audio_8bit.take (audio_8bit.length - audio_8bit.length % 3)
  let triples := reshapeRect (trimmed.length / 3) 3 trimmed
  let side := ceilSqrt triples.length
  let required := side ^ 2
  match npad [0, 0, 0] triples required with
  | some padded =>
      some ⟨side, reshapeRect side side (padded.map fun t => t.getD 0 0),
        reshapeRect side side (padded.map fun t => t.getD 2 0),
        reshapeRect side side (padded.map fun t => t.getD 1 0)⟩
  | none => none

/-- Method B (source lines 521-530) on the PCM stream. -/
def encode_audio_to_image_B (audio : List ℤ) : Option RGBImage :=
  encodeB_bytes (audio.map quantizeF)

/-- `k_low = int(low_cutoff * N / Fs)` with `low_cutoff = 1000`, `Fs = 44100`
(source line 539); float64 division is exactly rounded so the truncation
realizes the integer floor on this domain. -/
def k_low (N : ℕ) : ℕ := 1000 * N / 44100

/-- `k_mid = int(mid_cutoff * N / Fs)` with `mid_cutoff = 4000` (line 540). -/
def k_mid (N : ℕ) : ℕ := 4000 * N / 44100

/-- Truncation toward zero of a rational (the C float→int cast direction). -/
def truncZ (x : ℚ) : ℤ := if 0 ≤ x then ⌊x⌋ else -⌊-x⌋

/-- `(signal * 32768).astype(np.int16)` for one band sample (source line 553):
the multiplication by 2^15 is exact in float64; the cast truncates toward
zero and wraps modulo 2^16 with no clamping. -/
def to_int16 (s : ℚ) : ℤ := wrap16 (truncZ (s * 32768))

/-- Method C per-sample `to_8bit` (source lines 552-554): int16 conversion
followed by the shared float32 quantizer expression. -/
def to_8bit (s : ℚ) : ℕ := quantizeF (to_int16 s)

/-- Method C (source lines 532-567).  The spectral band-splitting
(`np.fft.rfft`, zeroing outside `[0, k_low)` / `[k_low, k_mid)` /
`[k_mid, N/2]`, `np.fft.irfft`) is external floating-point library code and is
taken as the parameter `bands`, which receives the cutoff bins `k_low N`,
`k_mid N` and the normalized signal; `np.fft.rfft` raises for a zero-length
input, modelled by the `N = 0` branch.  Each band signal is quantized by
`to_8bit`, padded with `required - N` zeros and packed at the shared side. -/
def encode_audio_to_image_C
    (bands : ℕ → ℕ → List ℚ → List ℚ × List ℚ × List ℚ) (audio : List ℤ) :
    Option RGBImage :=
  let audio_float := audio.map fun x => (x : ℚ) / 32768
  let N := audio_float.length
  if N = 0 then none
  else
    let b := bands (k_low N) (k_mid N) audio_float
    let side := ceilSqrt N
    let required := side ^ 2
    some ⟨side, reshapeRect side side (b.1.map to_8bit ++ List.replicate (required - N) 0),
      reshapeRect side side (b.2.1.map to_8bit ++ List.replicate (required - N) 0),
      reshapeRect side side (b.2.2.map to_8bit ++ List.replicate (required - N) 0)⟩

/-! ### The three decoders (source lines 581-625) -/

/-- Method A decode (source lines 590-595): flatten the red, green and blue
planes, concatenate in that order, dequantize. -/
def decode_image_to_audio_A (img : RGBImage) : List ℤ :=
  (img.red.flatten ++ img.green.flatten ++ img.blue.flatten).map dequantizeF

/-- Method B decode, byte level (source lines 597-601): per pixel read red,
blue, green in that order (`np.stack([red, blue, green], axis=-1).flatten()`). -/
def decodeB_bytes (img : RGBImage) : List ℕ :=
  (zip3With (fun a b c => [a, b, c]) img.red.flatten img.blue.flatten img.green.flatten).flatten

/-- Method B decode (source lines 597-602). -/
def decode_image_to_audio_B (img : RGBImage) : List ℤ :=
  (decodeB_bytes img).map dequantizeF

/-- Method C decode (source lines 604-611): dequantize each plane to 16-bit
values, then remix elementwise with the float64 weights 0.6 / 0.3 / 0.1 and
cast back to int16 (truncating). -/
def decode_image_to_audio_C (img : RGBImage) : List ℤ :=
  zip3With remixF (img.red.flatten.map dequantizeF) (img.green.flatten.map dequantizeF)
    (img.blue.flatten.map dequantizeF)

/-! ### Raster packer properties -/

theorem ceilSqrtFrom_spec (m : ℕ) : ∀ f k, (∃ j, k ≤ j ∧ j ≤ k + f ∧ m ≤ j * j) →
    m ≤ ceilSqrtFrom m f k * ceilSqrtFrom m f k ∧
      ∀ i, k ≤ i → m ≤ i * i → ceilSqrtFrom m f k ≤ i := by
  intro f
  induction f with
  | zero =>
    rintro k ⟨j, hj1, hj2, hj3⟩
    have hjk : j = k := by omega
    subst hjk
    exact ⟨hj3, fun i hik _ => hik⟩
  | succ f ih =>
    rintro k ⟨j, hj1, hj2, hj3⟩
    by_cases hk : m ≤ k * k
    · simp only [ceilSqrtFrom, if_pos hk]
      exact ⟨hk, fun i hik _ => hik⟩
    · simp only [ceilSqrtFrom, if_neg hk]
      have hex : ∃ j', k + 1 ≤ j' ∧ j' ≤ k + 1 + f ∧ m ≤ j' * j' := by
        refine ⟨j, ?_, by omega, hj3⟩
        by_cases hjk : j = k
        · exact absurd (hjk ▸ hj3) hk
        · omega
      obtain ⟨h1, h2⟩ := ih (k + 1) hex
      refine ⟨h1, fun i hik hi => ?_⟩
      have hne : i ≠ k := fun he => hk (he ▸ hi)
      exact h2 i (by omega) hi

theorem ceilSqrt_sq_ge (m : ℕ) : m ≤ ceilSqrt m ^ 2 := by
  rw [pow_two]
  refine (ceilSqrtFrom_spec m (m + 1) 0 ⟨m, by omega, by omega, ?_⟩).1
  rcases Nat.eq_zero_or_pos m with h | h
  · simp [h]
  · calc m = m * 1 := (Nat.mul_one m).symm
      _ ≤ m * m := Nat.mul_le_mul_left m h

theorem ceilSqrt_min (m k : ℕ) (hk : m ≤ k ^ 2) : ceilSqrt m ≤ k := by
  rw [pow_two] at hk
  refine (ceilSqrtFrom_spec m (m + 1) 0 ⟨m, by omega, by omega, ?_⟩).2 k (Nat.zero_le k) hk
  rcases Nat.eq_zero_or_pos m with h | h
  · simp [h]
  · calc m = m * 1 := (Nat.mul_one m).symm
      _ ≤ m * m := Nat.mul_le_mul_left m h

theorem flatten_reshapeRect {α : Type} (w : ℕ) :
    ∀ (n : ℕ) (l : List α), (reshapeRect n w l).flatten = l.take (n * w) := by
  intro n
  induction n with
  | zero => intro l; simp [reshapeRect]
  | succ n ih =>
    intro l
    have hr : reshapeRect (n + 1) w l =
        reshapeRect n w l ++ [(l.drop (n * w)).take w] := by
      unfold reshapeRect
      rw [List.range_succ, List.map_append, List.map_cons, List.map_nil]
    rw [hr, List.flatten_append, ih]
    simp only [List.flatten_cons, List.flatten_nil, List.append_nil]
    rw [← List.take_add, Nat.succ_mul]

/-- C1: Raster pack/unpack round trip.  For every non-empty byte sequence of
length M, the packing step computes the least side with side^2 ≥ M (the
ceiling of the square root), zero-pads to side^2 row-major, and flattening
the square grid row-major then trimming to M recovers the sequence exactly. -/
theorem C1_pack_unpack (l : List ℕ) (_hne : l ≠ []) :
    l.length ≤ ceilSqrt l.length ^ 2 ∧
      (∀ k, l.length ≤ k ^ 2 → ceilSqrt l.length ≤ k) ∧
      (unpack (pack l)).take l.length = l := by
  refine ⟨ceilSqrt_sq_ge _, fun k hk => ceilSqrt_min _ k hk, ?_⟩
  show (List.flatten (reshapeRect (ceilSqrt l.length) (ceilSqrt l.length)
      (l ++ List.replicate (ceilSqrt l.length ^ 2 - l.length) 0))).take l.length = l
  rw [flatten_reshapeRect]
  have hlen : (l ++ List.replicate (ceilSqrt l.length ^ 2 - l.length) 0).length
      = ceilSqrt l.length ^ 2 := by
    have := ceilSqrt_sq_ge l.length
    simp only [List.length_append, List.length_replicate]
    omega
  rw [show ceilSqrt l.length * ceilSqrt l.length = ceilSqrt l.length ^ 2 by ring]
  rw [List.take_of_length_le (le_of_eq hlen)]
  exact List.take_left l _

theorem C1_pack_unpack_witness :
    (([10, 20, 30] : List ℕ) ≠ []) ∧
      (unpack (pack [10, 20, 30])).take 3 = [10, 20, 30] :=
  ⟨by decide, (C1_pack_unpack [10, 20, 30] (by decide)).2.2⟩

/-! ### Method B round trip -/

theorem zip3With_map {α β₀ β₁ β₂ γ : Type} (f : β₀ → β₁ → β₂ → γ)
    (g0 : α → β₀) (g1 : α → β₁) (g2 : α → β₂) :
    ∀ l : List α, zip3With f (l.map g0) (l.map g1) (l.map g2) =
      l.map fun r => f (g0 r) (g1 r) (g2 r) := by
  intro l
  induction l with
  | nil => rfl
  | cons a as ih => simp [zip3With, ih]

theorem reshapeRect_row_length {α : Type} {n w : ℕ} {l : List α} (h : n * w ≤ l.length) :
    ∀ r ∈ reshapeRect n w l, r.length = w := by
  intro r hr
  simp only [reshapeRect, List.mem_map, List.mem_range] at hr
  obtain ⟨i, hi, rfl⟩ := hr
  simp only [List.length_take, List.length_drop]
  have he : (i + 1) * w = i * w + w := by ring
  have : (i + 1) * w ≤ n * w := Nat.mul_le_mul_right _ (by omega)
  omega

theorem triple_eta : ∀ r : List ℕ, r.length = 3 → [r.getD 0 0, r.getD 1 0, r.getD 2 0] = r := by
  intro r h
  rcases r with _ | ⟨a, _ | ⟨b, _ | ⟨c, _ | ⟨d, t⟩⟩⟩⟩ <;> simp_all

/-- C2: Method B permutation exactness.  Encoding groups the quantized bytes
into consecutive triples (s0, s1, s2) with red = s0, green = s2, blue = s1;
decoding reads red, blue, green per pixel, so the decoded byte stream begins
with the original triples exactly, independent of quantization. -/
theorem C2_methodB_permutation (bytes : List ℕ) (img : RGBImage)
    (h : encodeB_bytes bytes = some img) :
    (decodeB_bytes img).take (3 * (bytes.length / 3)) =
      bytes.take (3 * (bytes.length / 3)) := by
  simp only [encodeB_bytes, npad] at h
  split at h
  case h_2 => exact absurd h (by simp)
  case h_1 padded hpad_eq =>
    split at hpad_eq
    case isFalse => exact absurd hpad_eq (by simp)
    case isTrue hcond =>
      obtain rfl := Option.some_inj.mp hpad_eq
      obtain rfl := Option.some_inj.mp h
      set trimmed := List.take (bytes.length - bytes.length % 3) bytes with htr
      have htlen : trimmed.length = bytes.length - bytes.length % 3 := by
        rw [htr, List.length_take]; omega
      set triples := reshapeRect (trimmed.length / 3) 3 trimmed with htrip
      have htriples_len : triples.length = trimmed.length / 3 := by
        rw [htrip]; simp [reshapeRect]
      set side := ceilSqrt triples.length with hside
      set padded := triples ++ List.replicate (side ^ 2 - triples.length) [0, 0, 0]
        with hpadded
      have hpadlen : padded.length = side ^ 2 := by
        rw [hpadded, List.length_append, List.length_replicate]
        omega
      have hrow3 : ∀ r ∈ padded, r.length = 3 := by
        intro r hr
        rw [hpadded, List.mem_append] at hr
        rcases hr with hr | hr
        · refine reshapeRect_row_length ?_ r (htrip ▸ hr)
          omega
        · rw [List.eq_of_mem_replicate hr]; rfl
      unfold decodeB_bytes
      dsimp only
      have hflat : ∀ g : List ℕ → ℕ,
          (reshapeRect side side (padded.map g)).flatten = padded.map g := by
        intro g
        rw [flatten_reshapeRect]
        apply List.take_of_length_le
        rw [List.length_map, hpadlen, pow_two]
      rw [hflat, hflat, hflat]
      rw [zip3With_map]
      have hmapeta : (padded.map fun r => [r.getD 0 0, r.getD 1 0, r.getD 2 0]) = padded := by
        have h1 : (padded.map fun r => [r.getD 0 0, r.getD 1 0, r.getD 2 0]) = padded.map id :=
          List.map_congr_left fun r hr => triple_eta r (hrow3 r hr)
        rw [h1, List.map_id]
      rw [hmapeta, hpadded, List.flatten_append]
      have hjt : triples.flatten = trimmed := by
        rw [htrip, flatten_reshapeRect]
        have : trimmed.length / 3 * 3 = trimmed.length := by omega
        rw [this, List.take_length]
      rw [hjt]
      have hlen2 : 3 * (bytes.length / 3) = trimmed.length := by omega
      rw [hlen2]
      rw [List.take_left]
      rw [htlen]

theorem C2_methodB_permutation_witness :
    encodeB_bytes [10, 20, 30] = some ⟨1, [[10]], [[30]], [[20]]⟩ ∧
      (decodeB_bytes ⟨1, [[10]], [[30]], [[20]]⟩).take 3 = [10, 20, 30] :=
  ⟨rfl, C2_methodB_permutation [10, 20, 30] ⟨1, [[10]], [[30]], [[20]]⟩ rfl⟩

/-- C4: Method C cutoff bins: the encoder derives `k_low = floor(1000·N/44100)`
and `k_mid = floor(4000·N/44100)`; for N = 44100 these are exactly 1000 and
4000. -/
theorem C4_cutoff_bins :
    (∀ N : ℕ, k_low N = ⌊(1000 * (N : ℚ)) / 44100⌋₊ ∧
      k_mid N = ⌊(4000 * (N : ℚ)) / 44100⌋₊) ∧
      k_low 44100 = 1000 ∧ k_mid 44100 = 4000 := by
  refine ⟨fun N => ⟨?_, ?_⟩, by norm_num [k_low], by norm_num [k_mid]⟩
  · rw [k_low,
      show (1000 * (N : ℚ)) / 44100 = ((1000 * N : ℕ) : ℚ) / ((44100 : ℕ) : ℚ) by
        push_cast; ring_nf,
      Nat.floor_div_eq_div]
  · rw [k_mid,
      show (4000 * (N : ℚ)) / 44100 = ((4000 * N : ℕ) : ℚ) / ((44100 : ℕ) : ℚ) by
        push_cast; ring_nf,
      Nat.floor_div_eq_div]

/-- C5: Sample Quantizer round trip and monotonicity: for every int16 sample,
dequantize(quantize(x)) is within one quantization step (257 = 65535/255) of
x, and quantize is monotone non-decreasing. -/
theorem C5_quantizer_roundtrip_mono :
    (∀ x : ℤ, -32768 ≤ x → x ≤ 32767 → |dequantizeF (quantizeF x) - x| ≤ 257) ∧
      (∀ x y : ℤ, -32768 ≤ x → x ≤ y → y ≤ 32767 → quantizeF x ≤ quantizeF y) := by
  constructor
  · intro x h1 h2
    have hu : (x + 32768).toNat < 65536 := by omega
    have hq : quantizeF x = (x + 32768).toNat / 257 := quantizeU_eq_div _ hu
    have hlt : (x + 32768).toNat / 257 < 256 := by omega
    have hd := dequantizeF_eq _ hlt
    rw [hq, hd]
    have hmod := Nat.div_add_mod (x + 32768).toNat 257
    rw [abs_le]
    omega
  · intro x y h1 hxy h2
    rw [quantizeF, quantizeF, quantizeU_eq_div _ (by omega), quantizeU_eq_div _ (by omega)]
    apply Nat.div_le_div_right
    omega

theorem C5_quantizer_roundtrip_mono_witness :
    |dequantizeF (quantizeF 1000) - 1000| ≤ 257 ∧ quantizeF 0 ≤ quantizeF 1000 :=
  ⟨C5_quantizer_roundtrip_mono.1 1000 (by norm_num) (by norm_num),
    C5_quantizer_roundtrip_mono.2 0 1000 (by norm_num) (by norm_num) (by norm_num)⟩

/-- C6: Sample Quantizer forward map: the float32 computation
`((x + 32768) / 65535 * 255).astype(np.uint8)` equals the exact integer
formula `floor((x + 32768) / 65535 * 255)` on all of int16, and the byte
always lies in [0, 255]. -/
theorem C6_quantizer_forward :
    ∀ x : ℤ, -32768 ≤ x → x ≤ 32767 →
      quantizeF x = ⌊(((x : ℚ) + 32768) / 65535) * 255⌋₊ ∧ quantizeF x ≤ 255 := by
  intro x h1 h2
  have hu : (x + 32768).toNat < 65536 := by omega
  have hq : quantizeF x = (x + 32768).toNat / 257 := quantizeU_eq_div _ hu
  constructor
  · rw [hq]
    have hxu : (((x + 32768).toNat : ℤ)) = x + 32768 := by omega
    have hcast : (((x + 32768).toNat : ℕ) : ℚ) = (x : ℚ) + 32768 := by
      exact_mod_cast congrArg (fun z : ℤ => (z : ℚ)) hxu
    have e1 : ((x : ℚ) + 32768) / 65535 * 255
        = (((x + 32768).toNat * 255 : ℕ) : ℚ) / ((65535 : ℕ) : ℚ) := by
      push_cast
      rw [hcast]
      ring
    rw [e1, Nat.floor_div_eq_div]
    omega
  · rw [hq]
    omega

theorem C6_quantizer_forward_witness :
    quantizeF 1000 = ⌊(((1000 : ℤ) : ℚ) + 32768) / 65535 * 255⌋₊ ∧ quantizeF 1000 ≤ 255 :=
  C6_quantizer_forward 1000 (by norm_num) (by norm_num)

/-! ### Method A: exact success condition -/

theorem encodeA_some_iff (audio : List ℤ) :
    (encode_audio_to_image_A audio).isSome = true ↔
      (2 * audio.length / 3 - audio.length / 3 ≤ ceilSqrt (audio.length / 3) ^ 2 ∧
        audio.length - 2 * audio.length / 3 ≤ ceilSqrt (audio.length / 3) ^ 2) := by
  simp only [encode_audio_to_image_A, npad, List.length_map]
  have hredlen : ((audio.map quantizeF).take (audio.length / 3)).length = audio.length / 3 := by
    rw [List.length_take, List.length_map]; omega
  have hgreenlen : (((audio.map quantizeF).drop (audio.length / 3)).take
      (2 * audio.length / 3 - audio.length / 3)).length
      = 2 * audio.length / 3 - audio.length / 3 := by
    rw [List.length_take, List.length_drop, List.length_map]; omega
  have hbluelen : ((audio.map quantizeF).drop (2 * audio.length / 3)).length
      = audio.length - 2 * audio.length / 3 := by
    rw [List.length_drop, List.length_map]
  rw [hredlen, hgreenlen, hbluelen]
  rw [if_pos (ceilSqrt_sq_ge (audio.length / 3))]
  by_cases hg : 2 * audio.length / 3 - audio.length / 3 ≤ ceilSqrt (audio.length / 3) ^ 2
  · rw [if_pos hg]
    by_cases hb : audio.length - 2 * audio.length / 3 ≤ ceilSqrt (audio.length / 3) ^ 2
    · rw [if_pos hb]
      simp [hg, hb]
    · rw [if_neg hb]
      simp [hg, hb]
  · rw [if_neg hg]
    by_cases hb : audio.length - 2 * audio.length / 3 ≤ ceilSqrt (audio.length / 3) ^ 2
    · rw [if_pos hb]
      simp [hg, hb]
    · rw [if_neg hb]
      simp [hg, hb]

/-- C7: Method A ShapeMismatch handling: when the green or blue segment does
not fit the square sized from the red segment, the negative pad width is an
error and encode returns a failure value (no image); data is never silently
truncated to fit. -/
theorem C7_shape_mismatch_rejected (audio : List ℤ)
    (h : 2 * audio.length / 3 - audio.length / 3 > ceilSqrt (audio.length / 3) ^ 2 ∨
      audio.length - 2 * audio.length / 3 > ceilSqrt (audio.length / 3) ^ 2) :
    encode_audio_to_image_A audio = none := by
  have hiff := encodeA_some_iff audio
  cases hE : encode_audio_to_image_A audio with
  | none => rfl
  | some img =>
    rw [hE] at hiff
    simp only [Option.isSome_some, true_iff] at hiff
    omega

set_option maxRecDepth 10000 in
theorem C7_shape_mismatch_rejected_witness :
    (2 * (List.replicate 5 (0:ℤ)).length / 3 - (List.replicate 5 (0:ℤ)).length / 3 >
        ceilSqrt ((List.replicate 5 (0:ℤ)).length / 3) ^ 2 ∨
      (List.replicate 5 (0:ℤ)).length - 2 * (List.replicate 5 (0:ℤ)).length / 3 >
        ceilSqrt ((List.replicate 5 (0:ℤ)).length / 3) ^ 2) ∧
      encode_audio_to_image_A (List.replicate 5 0) = none :=
  ⟨by decide, C7_shape_mismatch_rejected (List.replicate 5 0) (by decide)⟩

set_option maxRecDepth 100000 in
set_option maxHeartbeats 1000000 in
/-- C9 counterexample: the claim predicts that Method A encode fails whenever
`n - 2*floor(n/3) > side^2`; at n = 11 that quantity is 5 > 4 = side^2, yet
the code succeeds and produces an image, because the code's blue segment is
`n - floor(2n/3) = 4`, not `n - 2*floor(n/3) = 5`. -/
theorem C9_counterexample :
    (encode_audio_to_image_A (List.replicate 11 0)).isSome = true ∧
      (List.replicate 11 (0:ℤ)).length - 2 * ((List.replicate 11 (0:ℤ)).length / 3) >
        ceilSqrt ((List.replicate 11 (0:ℤ)).length / 3) ^ 2 := by
  constructor
  · decide
  · decide

/-- C9 amended: Method A encode produces an image iff both the green segment
length `floor(2n/3) - floor(n/3)` and the blue segment length
`n - floor(2n/3)` fit into `side^2` with `side = ceil(sqrt(floor(n/3)))`;
otherwise the negative pad width raises and encode returns None. -/
theorem C9_encodeA_success_iff (audio : List ℤ) :
    (encode_audio_to_image_A audio).isSome = true ↔
      (2 * audio.length / 3 - audio.length / 3 ≤ ceilSqrt (audio.length / 3) ^ 2 ∧
        audio.length - 2 * audio.length / 3 ≤ ceilSqrt (audio.length / 3) ^ 2) :=
  encodeA_some_iff audio

/-! ### Empty input (claim C8) -/

/-- C8 counterexample: Method C encode on the empty stream returns no image —
`np.fft.rfft` raises for a zero-length input — contradicting the claim that
every codec's encode succeeds on the empty stream. -/
theorem C8_counterexample :
    encode_audio_to_image_C (fun _ _ s => (s, s, s)) [] = none := rfl

/-- C8 amended: on the empty PCM stream, Methods A and B are total and yield
the side-0 (0 × 0) raster per the ceiling-of-sqrt rule with M = 0; Method C's
encode instead fails (produces no image) for every band-splitting function,
because the FFT of a zero-length signal is an error. -/
theorem C8_empty_input :
    encode_audio_to_image_A [] = some ⟨0, [], [], []⟩ ∧
      encode_audio_to_image_B [] = some ⟨0, [], [], []⟩ ∧
      ∀ bands, encode_audio_to_image_C bands [] = none :=
  ⟨rfl, rfl, fun _ => rfl⟩

/-! ### Method C remix (claim C3) -/

set_option maxRecDepth 100000 in
set_option maxHeartbeats 1000000 in
/-- C3 counterexample: decoding the 1×1 all-zero raster dequantizes every
channel to -32768; the claimed formula gives
round(0.6·(-32768) + 0.3·(-32768) + 0.1·(-32768)) = -32768, but the code
(float64 products and sums, truncating int16 cast) produces -32767. -/
theorem C3_counterexample :
    decode_image_to_audio_C ⟨1, [[0]], [[0]], [[0]]⟩ = [-32767] ∧
      dequantizeF 0 = -32768 ∧
      round ((0.6 : ℚ) * (-32768) + 0.3 * (-32768) + 0.1 * (-32768)) = (-32768 : ℤ) := by
  refine ⟨by decide, by decide, ?_⟩
  have h : (0.6 : ℚ) * (-32768) + 0.3 * (-32768) + 0.1 * (-32768) = ((-32768 : ℤ) : ℚ) := by
    norm_num
  rw [h, round_intCast]

theorem zip3With_comp {α₀ α₁ α₂ β₀ β₁ β₂ γ : Type} (f : β₀ → β₁ → β₂ → γ)
    (g0 : α₀ → β₀) (g1 : α₁ → β₁) (g2 : α₂ → β₂) :
    ∀ (a : List α₀) (b : List α₁) (c : List α₂),
      zip3With f (a.map g0) (b.map g1) (c.map g2) =
        zip3With (fun x y z => f (g0 x) (g1 y) (g2 z)) a b c := by
  intro a
  induction a with
  | nil => intro b c; rfl
  | cons x xs ih =>
    intro b c
    cases b with
    | nil => rfl
    | cons y ys =>
      cases c with
      | nil => rfl
      | cons z zs => simp [zip3With, ih]

set_option maxRecDepth 100000 in
set_option maxHeartbeats 1000000 in
/-- C3 amended: Method C decode dequantizes each channel to 16-bit values and
produces, at every sample position, the float64 value
0.6·red_16 + 0.3·green_16 + 0.1·blue_16 truncated toward zero (not rounded);
in the all-equal case red_16 = green_16 = blue_16 = 100 the float64 sum is
exactly 100.0 and the output sample is exactly 100. -/
theorem C3_remix_truncates :
    (∀ img : RGBImage, decode_image_to_audio_C img =
      zip3With (fun x y z => remixF (dequantizeF x) (dequantizeF y) (dequantizeF z))
        img.red.flatten img.green.flatten img.blue.flatten) ∧
      remixF 100 100 100 = 100 := by
  constructor
  · intro img
    unfold decode_image_to_audio_C
    exact zip3With_comp remixF dequantizeF dequantizeF dequantizeF _ _ _
  · decide

/-! ### Method C int16 wraparound (claim C10) -/

theorem truncZ_intCast (n : ℤ) : truncZ ((n : ℤ) : ℚ) = n := by
  unfold truncZ
  split_ifs with h
  · exact Int.floor_intCast n
  · rw [show (-(n : ℚ)) = ((-n : ℤ) : ℚ) by push_cast; ring, Int.floor_intCast]
    ring

theorem truncZ_one_32768 : truncZ ((1 : ℚ) * 32768) = 32768 := by
  rw [show (1 : ℚ) * 32768 = ((32768 : ℤ) : ℚ) by norm_num, truncZ_intCast]

/-- C10: Method C int16 wraparound: the band scaling `(signal * 32768)
.astype(np.int16)` has no range guard; a scaled value of exactly 32768 (the
float sample 1.0) wraps modulo 2^16 to -32768 instead of being clamped or
rejected, so the full-scale sample 1.0 encodes as byte 0 while the largest
in-range sample 32767/32768 encodes as byte 255. -/
theorem C10_int16_wraparound :
    (∀ s : ℚ, truncZ (s * 32768) = 32768 → to_int16 s = -32768) ∧
      to_int16 1 = -32768 ∧ to_8bit 1 = 0 ∧
      to_int16 (32767 / 32768) = 32767 ∧ to_8bit (32767 / 32768) = 255 := by
  have hwrap : ∀ s : ℚ, truncZ (s * 32768) = 32768 → to_int16 s = -32768 := by
    intro s hs
    unfold to_int16
    rw [hs]
    decide
  have h1 : to_int16 1 = -32768 := hwrap 1 truncZ_one_32768
  have h2 : to_int16 (32767 / 32768) = 32767 := by
    unfold to_int16
    rw [show (32767 : ℚ) / 32768 * 32768 = ((32767 : ℤ) : ℚ) by norm_num, truncZ_intCast]
    decide
  refine ⟨hwrap, h1, ?_, h2, ?_⟩
  · unfold to_8bit
    rw [h1]
    decide
  · unfold to_8bit
    rw [h2]
    decide

theorem C10_int16_wraparound_witness :
    truncZ ((1 : ℚ) * 32768) = 32768 ∧ to_int16 1 = -32768 :=
  ⟨truncZ_one_32768, C10_int16_wraparound.1 1 truncZ_one_32768⟩
